import Mathlib

/-!
Shallow embedding of the Zen-Network consensus engine (Go package `consensus`,
src/unnamed/part_000 lines 1088-1627) in Lean 4, together with theorems that
settle the frozen claims C1-C10 about it.

Modelling conventions:
* Go byte slices are `List Nat` values (each element a byte); Go `string`
  comparison of addresses (`string(val.Address) == string(address)`) is list
  equality.
* Go `uint64` is `Nat` and `int64` is `Int`.  The constant `MinStake`
  (10^21) in the source exceeds the `uint64` range, so stake arithmetic is
  only meaningful read over unbounded naturals; we adopt that reading
  uniformly.  Where a Go conversion genuinely truncates to 64 bits
  (`uint64(height)` fed into the entry hash) we reduce mod 2^64 explicitly.
* Wall-clock reads (`time.Now()`) become an explicit `now : Int` argument.
* SHA-256 (`sha256.Sum256`) is an external library call; operations that hash
  take the hash function `Hf : List Nat → List Nat` as a parameter and apply
  it to exactly the bytes the Go code assembles.
* The reward share `uint64(float64(totalReward) * stakeRatio)` is computed in
  IEEE-754 double precision in the source; the per-validator share is taken
  as an abstract parameter `fmul : Nat → Nat → Nat → Nat` (total reward,
  stake, total stake).
* Slices are modelled as immutable values (copy on slice/append), the
  standard functional reading of the Go code.
* A `none` result models a Go nil-pointer panic (empty `PoHSequence` tail
  read, or `c.CurrentBlock` being nil when dereferenced).
-/

namespace ZenConsensus

/-- Byte strings, e.g. addresses and digests. -/
abbrev Bytes := List Nat

/-- Source constant `MinStake = 1000000000000000000000` (1000 ZEN at 18
decimals).  Note this literal exceeds `2^64 - 1`. -/
def MinStake : Nat := 1000000000000000000000

/-- Source constant: the 64 shards (`make([]Committee, 64)` and the literal
`64` in `shuffleValidators`). -/
def ShardCount : Nat := 64

/-- Go struct `SlashingEvent` (Height, Reason, Penalty, Timestamp). -/
structure SlashingEvent where
  height : Int
  reason : String
  penalty : Nat
  timestamp : Int
deriving DecidableEq

/-- Go struct `Validator`.  The `EcoScore float64` field is omitted: it is
never read nor written by any operation of the engine. -/
structure Validator where
  address : Bytes
  pubKey : Bytes
  stake : Nat
  power : Int
  reward : Nat
  slashed : Bool
  vrfProof : Bytes
  pohSeq : Nat
  pohTimestamp : Int
  validatorType : String
  lastBlockProduced : Int
  slashingEvents : List SlashingEvent
deriving DecidableEq

/-- Go struct `Committee` (ID, Validators, Shuffled, BlockHash, PoHSequence). -/
structure Committee where
  id : Nat
  validators : List Validator
  shuffled : Bool
  blockHash : Bytes
  pohSeq : Nat
deriving DecidableEq

/-- Go struct `ProofOfHistoryEntry`. -/
structure PoHEntry where
  index : Nat
  hash : Bytes
  previousHash : Bytes
  timestamp : Int
  entryData : Bytes
deriving DecidableEq

/-- Modelled from the spec: the `types.Block` / `types.Header` package is not
part of the provided sources.  The engine reads only `block.Header.Height`,
`block.Header.Hash()` and `block.Data.TxsHash`, so a block is modelled as the
height together with those two opaque digests. -/
structure Block where
  height : Int
  headerHash : Bytes
  txsHash : Bytes
deriving DecidableEq

/-- Modelled from the spec: `types.Vote` is not part of the provided sources;
per the spec a finality vote carries the voting validator's identity, which is
all the engine state distinguishes. -/
abbrev Vote := Bytes

/-- Go struct `Consensus` (aggregate root).  The two mutexes are concurrency
control with no state content; `ConsensusType` (constant `Hybrid`),
`BlockProducers` (written once, never read) and `Commit` (written by
`CommitBlock` only) are carried nowhere by the verified operations and are
omitted.  `FinalityVotes map[int64][]*types.Vote` is an association list from
height to the list of votes (a Go map binding). -/
structure Consensus where
  validatorSet : List Validator
  currentHeight : Int
  currentBlock : Option Block
  pohSequence : List PoHEntry
  committees : List Committee
  finalityVotes : List (Int × List Vote)
deriving DecidableEq

/-- Errors returned by the engine, as structured values carrying exactly the
quantities the Go `fmt.Errorf` messages interpolate. -/
inductive ConsensusError where
  | insufficientStake (stake min : Nat)
  | duplicateValidator (address : Bytes)
  | validatorNotFound (address : Bytes)
  | insufficientSignatures (got required : Nat)
deriving DecidableEq

/-- Go `New()`: empty validator set, height 0, nil current block, empty PoH
sequence, empty committees, empty vote map. -/
def Consensus.new : Consensus :=
  { validatorSet := [], currentHeight := 0, currentBlock := none,
    pohSequence := [], committees := [], finalityVotes := [] }

/-- Bytes of the Go string literal "genesis". -/
def genesisHash : Bytes := [103, 101, 110, 101, 115, 105, 115]

/-- Bytes of the Go string literal "zen-network-genesis". -/
def genesisData : Bytes :=
  [122, 101, 110, 45, 110, 101, 116, 119, 111, 114, 107, 45,
   103, 101, 110, 101, 115, 105, 115]

/-- Genesis entry built by `initializePoH` (timestamp is `time.Now().Unix()`). -/
def genesisEntry (now : Int) : PoHEntry :=
  { index := 0, hash := genesisHash, previousHash := [],
    timestamp := now, entryData := genesisData }

/-- Go `initializePoH`: appends the genesis entry to the PoH sequence
(unconditionally; the function never fails). -/
def initializePoH (c : Consensus) (now : Int) : Consensus :=
  { c with pohSequence := c.pohSequence ++ [genesisEntry now] }

/-- Slice width used by `shuffleValidators`: `validatorsPerShard = total/64`,
bumped to 1 when the integer division gives 0. -/
def validatorsPerShard (total : Nat) : Nat :=
  if total / 64 = 0 then 1 else total / 64

/-- One committee of `shuffleValidators`: shard `shardID` receives the roster
slice `[start:end]` with `start = shardID*vps` and `end` clipped to the
roster length; a shard whose start lies past the roster gets the empty slice
(the Go code resets the bounds to `[0:0]`). -/
def committeeFor (vs : List Validator) (vps shardID : Nat) : Committee :=
  let total := vs.length
  let start := shardID * vps
  let fin := if start + vps > total then total else start + vps
  { id := shardID,
    validators :=
      if start ≥ total then [] else (vs.drop start).take (fin - start),
    shuffled := true, blockHash := [], pohSeq := shardID }

/-- Go `shuffleValidators`: partitions `ValidatorSet` into 64 committees by
contiguous slices of size `validatorsPerShard`; on an empty roster it
returns immediately, leaving `Committees` untouched. -/
def shuffleValidators (c : Consensus) : Consensus :=
  let total := c.validatorSet.length
  if total = 0 then c
  else
    let committees :=
      (List.range 64).map (committeeFor c.validatorSet (validatorsPerShard total))
    { c with committees := committees }

/-- Go `AddValidator`: rejects stake below `MinStake`, rejects an address
already present, computes `Power = int64(Stake / 1000000000)`, appends, and
reshuffles.  The pair returns the (possibly unchanged) state together with
the error, mirroring the mutated receiver plus `error` return of the Go
method. -/
def addValidator (c : Consensus) (v : Validator) :
    Consensus × Option ConsensusError :=
  if v.stake < MinStake then
    (c, some (ConsensusError.insufficientStake v.stake MinStake))
  else if c.validatorSet.any (fun val => val.address = v.address) then
    (c, some (ConsensusError.duplicateValidator v.address))
  else
    let v' := { v with power := (Int.ofNat (v.stake / 1000000000)) }
    (shuffleValidators { c with validatorSet := c.validatorSet ++ [v'] }, none)

/-- Go `RemoveValidator`: splices out the first validator whose address
matches and reshuffles; reports `validator not found` otherwise. -/
def removeValidator (c : Consensus) (address : Bytes) :
    Consensus × Option ConsensusError :=
  match c.validatorSet.findIdx? (fun val => val.address = address) with
  | some i =>
      (shuffleValidators { c with validatorSet := c.validatorSet.eraseIdx i },
       none)
  | none => (c, some (ConsensusError.validatorNotFound address))

/-- Go `SlashValidator`: finds the validator, clamps the penalty to the
current stake, deducts, marks slashed, appends a `SlashingEvent` recording
the clamped penalty at the current height, and splices the validator out of
the set when the remaining stake is below `MinStake` (otherwise writes the
updated record back).  No reshuffle happens on either path. -/
def slashValidator (c : Consensus) (address : Bytes) (reason : String)
    (penalty : Nat) (now : Int) : Consensus × Option ConsensusError :=
  match c.validatorSet.findIdx? (fun val => val.address = address) with
  | some i =>
    match c.validatorSet[i]? with
    | none => (c, some (ConsensusError.validatorNotFound address))
    | some val =>
      let p := if penalty > val.stake then val.stake else penalty
      let ev : SlashingEvent :=
        { height := c.currentHeight, reason := reason, penalty := p,
          timestamp := now }
      let val' : Validator :=
        { val with
          stake := val.stake - p
          slashed := true
          slashingEvents := val.slashingEvents ++ [ev] }
      if val'.stake < MinStake then
        ({ c with validatorSet := c.validatorSet.eraseIdx i }, none)
      else
        ({ c with validatorSet := c.validatorSet.set i val' }, none)
  | none => (c, some (ConsensusError.validatorNotFound address))

/-- Big-endian 8-byte encoding of `n mod 2^64` (Go
`binary.BigEndian.PutUint64`). -/
def be64 (n : Nat) : Bytes :=
  let m := n % (2 ^ 64)
  [m / 2 ^ 56 % 256, m / 2 ^ 48 % 256, m / 2 ^ 40 % 256, m / 2 ^ 32 % 256,
   m / 2 ^ 24 % 256, m / 2 ^ 16 % 256, m / 2 ^ 8 % 256, m % 256]

/-- Go conversion of a (possibly negative) `int64` to `uint64`:
two's-complement wrap-around, i.e. the value mod 2^64. -/
def toUint64 (i : Int) : Nat := (i % (2 ^ 64 : Nat)).toNat

/-- Go `hashEntry`: hashes `prev.Hash ‖ bigEndian(uint64(height)) ‖
bigEndian(timestamp)` where the timestamp is the wall-clock
`time.Now().Unix()` (passed here as `now`), with `Hf` standing for
`sha256.Sum256`. -/
def hashEntry (Hf : Bytes → Bytes) (prev : PoHEntry) (height : Int)
    (now : Int) : Bytes :=
  Hf (prev.hash ++ be64 (toUint64 height) ++ be64 (toUint64 now))

/-- Go `getPoHEntry`: for `0 ≤ height < len(PoHSequence)` it returns the
stored entry at position `height` without modifying anything; for every
other height it appends exactly one new entry chained to the current tail
(`Index = tail.Index + 1`, `PreviousHash = tail.Hash`) and returns it.  An
empty sequence makes the tail read `PoHSequence[len-1]` panic (`none`).  It
never returns an error value. -/
def getPoHEntry (Hf : Bytes → Bytes) (c : Consensus) (height : Int)
    (now : Int) : Option (Consensus × PoHEntry) :=
  if height < 0 ∨ (c.pohSequence.length : Int) ≤ height then
    match c.pohSequence.getLast? with
    | none => none
    | some prev =>
        let entry : PoHEntry :=
          { index := prev.index + 1, hash := hashEntry Hf prev height now,
            previousHash := prev.hash, timestamp := now, entryData := [] }
        some ({ c with pohSequence := c.pohSequence ++ [entry] }, entry)
  else
    match c.pohSequence[height.toNat]? with
    | some e => some (c, e)
    | none => none

/-- Go `updatePoHSequence`: when `block.Header.Height ≥ len(PoHSequence)`,
appends a closing entry whose index is the block height, whose hash is the
block's header hash, and whose previous-hash is the *current block's* header
hash (a nil `CurrentBlock` panics: `none`); otherwise leaves the state
unchanged. -/
def updatePoHSequence (c : Consensus) (b : Block) (now : Int) :
    Option Consensus :=
  if (c.pohSequence.length : Int) ≤ b.height then
    match c.currentBlock with
    | none => none
    | some cb =>
        some { c with pohSequence := c.pohSequence ++
          [{ index := toUint64 b.height, hash := b.headerHash,
             previousHash := cb.headerHash, timestamp := now,
             entryData := b.txsHash }] }
  else some c

/-- Go `getTotalStake`: sum of all stakes. -/
def getTotalStake (c : Consensus) : Nat :=
  c.validatorSet.foldl (fun acc v => acc + v.stake) 0

/-- Source constant: the example total block reward `1000000000000000000`
(1 ZEN) hard-coded in `distributeRewards`. -/
def totalBlockReward : Nat := 1000000000000000000

/-- Go `distributeRewards`: credits each validator with the share
`uint64(float64(totalReward) * (float64(stake) / float64(totalStake)))`.
The IEEE-754 computation is the abstract parameter
`fmul totalReward stake totalStake`. -/
def distributeRewards (fmul : Nat → Nat → Nat → Nat) (c : Consensus) :
    Consensus :=
  let total := getTotalStake c
  { c with validatorSet := c.validatorSet.map (fun v =>
      { v with reward := v.reward + fmul totalBlockReward v.stake total }) }

/-- Lookup of the Go map read `c.FinalityVotes[height]`: the bound list of
votes, or the empty list when the key is absent (a nil slice has length 0). -/
def lookupVotes (fv : List (Int × List Vote)) (height : Int) : List Vote :=
  match fv.find? (fun p => p.1 = height) with
  | some p => p.2
  | none => []

/-- Go map write `m[height] = votes`: replaces the binding or adds it. -/
def setVotes (fv : List (Int × List Vote)) (height : Int)
    (votes : List Vote) : List (Int × List Vote) :=
  if fv.any (fun p => p.1 = height) then
    fv.map (fun p => if p.1 = height then (height, votes) else p)
  else fv ++ [(height, votes)]

/-- Modelled from the spec: `RecordFinalityVote` is not part of the provided
sources (only the `FinalityVotes map[int64][]*types.Vote` store and its
consumer `FinalizeBlock` are).  The store is a list per height, and the spec
records that the base implementation appends the vote to that list (which is
exactly what populating a `[]*types.Vote` binding does), performing no
deduplication. -/
def recordFinalityVote (c : Consensus) (height : Int) (v : Vote) :
    Consensus :=
  { c with finalityVotes :=
      setVotes c.finalityVotes height (lookupVotes c.finalityVotes height ++ [v]) }

/-- Go `FinalizeBlock`: computes `required = len(ValidatorSet)*2/3 + 1`,
reads the vote list for the block's height, and when its length reaches the
threshold distributes rewards and updates the PoH sequence (success, no
error); otherwise reports `insufficient signatures: got/required` and changes
nothing. -/
def finalizeBlock (fmul : Nat → Nat → Nat → Nat) (c : Consensus) (b : Block)
    (now : Int) : Option (Consensus × Option ConsensusError) :=
  let required := c.validatorSet.length * 2 / 3 + 1
  let currentVotes := lookupVotes c.finalityVotes b.height
  if required ≤ currentVotes.length then
    match updatePoHSequence (distributeRewards fmul c) b now with
    | none => none
    | some c' => some (c', none)
  else
    some (c, some (ConsensusError.insufficientSignatures
      currentVotes.length required))

/-! Derived predicates and concrete material used by the theorems. -/

/-- Adjacent-link condition of the history chain: the later entry points at
the digest of the earlier one and advances the index by exactly one. -/
def chainStepB (a b : PoHEntry) : Bool :=
  b.previousHash == a.hash && b.index == a.index + 1

/-- All adjacent pairs of the sequence satisfy `chainStepB`. -/
def linksB : List PoHEntry → Bool
  | [] => true
  | [_] => true
  | a :: b :: rest => chainStepB a b && linksB (b :: rest)

/-- The genesis shape produced by `initializePoH`: index 0, the fixed
"genesis" digest, an empty previous digest and the fixed payload. -/
def genesisShapedB (e : PoHEntry) : Bool :=
  e.index == 0 && e.previousHash == [] && e.hash == genesisHash &&
    e.entryData == genesisData

/-- Head of the sequence, when present, is genesis-shaped. -/
def headGenesisB : List PoHEntry → Bool
  | [] => true
  | g :: _ => genesisShapedB g

/-- Hash-chain invariant of the history sequence. -/
def chainInvB (ps : List PoHEntry) : Bool := headGenesisB ps && linksB ps

/-- Roster well-formedness: pairwise distinct addresses, and every member
holds at least `MinStake`. -/
def RosterInv (c : Consensus) : Prop :=
  c.validatorSet.Pairwise (fun a b => a.address ≠ b.address) ∧
    ∀ v ∈ c.validatorSet, MinStake ≤ v.stake

/-- A minimal validator record with the given one-byte address and stake,
used for concrete instances. -/
def mkV (a : Nat) (s : Nat) : Validator :=
  { address := [a], pubKey := [], stake := s, power := 0, reward := 0,
    slashed := false, vrfProof := [], pohSeq := 0, pohTimestamp := 0,
    validatorType := "hybrid", lastBlockProduced := 0, slashingEvents := [] }

/-- A degenerate instantiation of the abstract IEEE-754 reward share,
usable in concrete runs (the claims proved here hold for every `fmul`). -/
def fmulZero : Nat → Nat → Nat → Nat := fun _ _ _ => 0

/-- A degenerate instantiation of the abstract SHA-256 parameter, usable in
concrete runs. -/
def hashZero : Bytes → Bytes := fun _ => []

/-- An engine state directly after PoH initialization at wall-clock 0. -/
def genesisState : Consensus := initializePoH Consensus.new 0

/-- Witness for C1 at a concrete engine: ten validators, six recorded votes
at the block's height; finalization fails with the pair (6, 7), and the
threshold at roster size 10 is 7. -/
def c1State : Consensus :=
  { validatorSet := (List.range 10).map (fun i => mkV i MinStake),
    currentHeight := 0,
    currentBlock := some { height := 0, headerHash := [1], txsHash := [] },
    pohSequence := [genesisEntry 0], committees := [],
    finalityVotes := [(0, (List.range 6).map (fun i => [i]))] }

/-- Engine with two distinct validators and a genesis history, before any
finality vote. -/
def c7Base : Consensus :=
  { Consensus.new with
    validatorSet := [mkV 0 MinStake, mkV 1 MinStake]
    pohSequence := [genesisEntry 0] }

/-- The same validator identity recorded twice for height 0. -/
def c7State : Consensus :=
  recordFinalityVote (recordFinalityVote c7Base 0 [7]) 0 [7]

/-- Witness for C3 amended: a two-entry chain; height 1 is an idempotent
read of the stored entry, and height 7 appends the single entry of index 2. -/
def c3State : Consensus :=
  { genesisState with pohSequence := genesisState.pohSequence ++
      [{ index := 1, hash := [4], previousHash := genesisHash,
         timestamp := 0, entryData := [] }] }

/-- C2 counterexample.  A state satisfying the hash-chain invariant (genesis
only, current block digest `[1,2]`, one recorded vote at height 5, an empty
roster so the quorum threshold is 1): finalizing a height-5 block succeeds
and appends the closing entry with index 5 (not `0 + 1`) and previous digest
`[1,2]` (the current block's header hash, not the genesis digest), violating
the invariant. -/
def c2State : Consensus :=
  { Consensus.new with
    currentBlock := some { height := 0, headerHash := [1, 2], txsHash := [] }
    pohSequence := [genesisEntry 0]
    finalityVotes := [(5, [[9]])] }

/-- The state produced by the height-1 extension of the genesis state under
the degenerate hash. -/
def c2Ext : Consensus :=
  { genesisState with
    pohSequence := [genesisEntry 0,
      { index := 1, hash := [], previousHash := genesisHash,
        timestamp := 0, entryData := [] }] }

/-- Two engines with the same one-validator roster but different heights and
different stale committees. -/
def c8a : Consensus :=
  { Consensus.new with validatorSet := [mkV 0 MinStake], currentHeight := 3 }

def c8b : Consensus :=
  { Consensus.new with
    validatorSet := [mkV 0 MinStake]
    currentHeight := 9
    committees := [{ id := 99, validators := [], shuffled := false,
                     blockHash := [5], pohSeq := 0 }] }

/-- C4 counterexample.  A roster of 65 validators: `validatorsPerShard`
is 1, the 64 committees cover exactly the first 64 validators, and the
validator with address `[64]` appears in no committee at all — the multiset
union of the committees is strictly smaller than the roster. -/
def c4State : Consensus :=
  { Consensus.new with
    validatorSet := (List.range 65).map (fun i => mkV i MinStake) }

/-- Witness for C4 amended at a three-validator roster: 64 committees whose
concatenation is exactly the roster. -/
def c4Small : Consensus :=
  { Consensus.new with
    validatorSet := [mkV 0 MinStake, mkV 1 MinStake, mkV 2 MinStake] }

/-- C5 counterexample.  Two staked validators, committees freshly shuffled;
slashing validator `[0]` with a penalty exceeding its stake evicts it (the
vote count clamps to the full stake), yet the committees are left exactly as
they were — they still contain the evicted validator and differ from what a
reshuffle of the new roster would produce. -/
def c5State : Consensus :=
  shuffleValidators
    { Consensus.new with validatorSet := [mkV 0 MinStake, mkV 1 MinStake] }

/-- Witness for C5 amended: a small penalty leaves the committees untouched,
and an exceeding penalty evicts the first validator. -/
def c5W : Consensus :=
  { Consensus.new with validatorSet := [mkV 0 MinStake, mkV 1 MinStake] }

/-- Witness for C10: a one-validator engine; slashing an absent address,
re-adding a sub-minimum candidate and removing an absent address each error
and each leaves the state untouched. -/
def c10State : Consensus := (addValidator Consensus.new (mkV 0 MinStake)).1

/-- The record written back by `slashValidator` for a found validator
`val`: stake reduced by the clamped penalty, the slashed flag set, and a
`SlashingEvent` recording the clamped penalty appended. -/
def slashedVal (c : Consensus) (reason : String) (penalty : Nat) (now : Int)
    (val : Validator) : Validator :=
  { val with
    stake := val.stake - (if penalty > val.stake then val.stake else penalty)
    slashed := true
    slashingEvents := val.slashingEvents ++
      [{ height := c.currentHeight, reason := reason,
         penalty := if penalty > val.stake then val.stake else penalty,
         timestamp := now }] }

lemma distributeRewards_currentBlock (fmul : Nat → Nat → Nat → Nat)
    (c : Consensus) : (distributeRewards fmul c).currentBlock = c.currentBlock :=
  rfl

lemma updatePoHSequence_isSome (c : Consensus) (b : Block) (now : Int)
    (cb : Block) (h : c.currentBlock = some cb) :
    ∃ c', updatePoHSequence c b now = some c' := by
  unfold updatePoHSequence
  split
  · rw [h]
    exact ⟨_, rfl⟩
  · exact ⟨c, rfl⟩

/-- C1.  FinalizeBlock computes `required = 2n/3 + 1` over the roster size
`n`; given a non-nil current block it succeeds (distributing rewards and
running the closing PoH update) exactly when the recorded vote count for the
block's height reaches `required`, and otherwise fails with an
insufficient-signatures error carrying the current and the required count;
with `n = 10` the threshold is 7. -/
theorem finalizeBlock_quorum_threshold (fmul : Nat → Nat → Nat → Nat)
    (c : Consensus) (b : Block) (now : Int) (cb : Block)
    (hcb : c.currentBlock = some cb) :
    ((c.validatorSet.length * 2 / 3 + 1 ≤
        (lookupVotes c.finalityVotes b.height).length) →
      ∃ c', updatePoHSequence (distributeRewards fmul c) b now = some c' ∧
        finalizeBlock fmul c b now = some (c', none))
    ∧ (((lookupVotes c.finalityVotes b.height).length <
          c.validatorSet.length * 2 / 3 + 1) →
        finalizeBlock fmul c b now = some (c, some
          (ConsensusError.insufficientSignatures
            (lookupVotes c.finalityVotes b.height).length
            (c.validatorSet.length * 2 / 3 + 1))))
    ∧ ((∃ c', finalizeBlock fmul c b now = some (c', none)) ↔
        c.validatorSet.length * 2 / 3 + 1 ≤
          (lookupVotes c.finalityVotes b.height).length)
    ∧ (c.validatorSet.length = 10 → c.validatorSet.length * 2 / 3 + 1 = 7) := by
  obtain ⟨cu, hcu⟩ := updatePoHSequence_isSome (distributeRewards fmul c) b now cb
    ((distributeRewards_currentBlock fmul c).trans hcb)
  by_cases hq : c.validatorSet.length * 2 / 3 + 1 ≤
      (lookupVotes c.finalityVotes b.height).length
  · have hfin : finalizeBlock fmul c b now = some (cu, none) := by
      simp only [finalizeBlock, if_pos hq, hcu]
    refine ⟨fun _ => ⟨cu, hcu, hfin⟩, fun hlt => absurd hq (by omega), ?_, ?_⟩
    · exact ⟨fun _ => hq, fun _ => ⟨cu, hfin⟩⟩
    · intro hn
      rw [hn]
  · have hfin : finalizeBlock fmul c b now = some (c, some
        (ConsensusError.insufficientSignatures
          (lookupVotes c.finalityVotes b.height).length
          (c.validatorSet.length * 2 / 3 + 1))) := by
      simp only [finalizeBlock, if_neg hq]
    refine ⟨fun h => absurd h hq, fun _ => hfin, ?_, ?_⟩
    · constructor
      · rintro ⟨c', hc'⟩
        rw [hfin] at hc'
        simp at hc'
      · intro h
        exact absurd h hq
    · intro hn
      rw [hn]

theorem finalizeBlock_quorum_threshold_witness :
    finalizeBlock fmulZero c1State { height := 0, headerHash := [2], txsHash := [] } 0
      = some (c1State, some (ConsensusError.insufficientSignatures 6 7))
    ∧ c1State.validatorSet.length * 2 / 3 + 1 = 7 :=
  ⟨(finalizeBlock_quorum_threshold fmulZero c1State
      { height := 0, headerHash := [2], txsHash := [] } 0
      { height := 0, headerHash := [1], txsHash := [] } rfl).2.1 (by decide),
   (finalizeBlock_quorum_threshold fmulZero c1State
      { height := 0, headerHash := [2], txsHash := [] } 0
      { height := 0, headerHash := [1], txsHash := [] } rfl).2.2.2 (by decide)⟩

/-- C10.  Whenever AddValidator, RemoveValidator or SlashValidator returns
an error, the returned state is exactly the input state. -/
theorem roster_ops_atomic_on_error :
    (∀ (c : Consensus) (v : Validator) (c' : Consensus) (e : ConsensusError),
        addValidator c v = (c', some e) → c' = c)
    ∧ (∀ (c : Consensus) (a : Bytes) (c' : Consensus) (e : ConsensusError),
        removeValidator c a = (c', some e) → c' = c)
    ∧ (∀ (c : Consensus) (a : Bytes) (r : String) (p : Nat) (now : Int)
        (c' : Consensus) (e : ConsensusError),
        slashValidator c a r p now = (c', some e) → c' = c) := by
  refine ⟨?_, ?_, ?_⟩
  · intro c v c' e h
    unfold addValidator at h
    split at h
    · exact (Prod.mk.injEq _ _ _ _ ▸ h).1.symm
    · split at h
      · exact (Prod.mk.injEq _ _ _ _ ▸ h).1.symm
      · simp at h
  · intro c a c' e h
    unfold removeValidator at h
    split at h
    · simp at h
    · exact (Prod.mk.injEq _ _ _ _ ▸ h).1.symm
  · intro c a r p now c' e h
    unfold slashValidator at h
    split at h
    · split at h
      · exact (Prod.mk.injEq _ _ _ _ ▸ h).1.symm
      · split at h <;> simp at h <;> split at h <;> simp at h
    · exact (Prod.mk.injEq _ _ _ _ ▸ h).1.symm

theorem roster_ops_atomic_on_error_witness :
    (slashValidator c10State [5] "double-sign" 1 0).1 = c10State
    ∧ (addValidator c10State (mkV 1 0)).1 = c10State
    ∧ (removeValidator c10State [9]).1 = c10State :=
  ⟨roster_ops_atomic_on_error.2.2 c10State [5] "double-sign" 1 0
      (slashValidator c10State [5] "double-sign" 1 0).1
      (ConsensusError.validatorNotFound [5]) (by decide),
   roster_ops_atomic_on_error.1 c10State (mkV 1 0)
      (addValidator c10State (mkV 1 0)).1
      (ConsensusError.insufficientStake 0 MinStake) (by decide),
   roster_ops_atomic_on_error.2.1 c10State [9]
      (removeValidator c10State [9]).1
      (ConsensusError.validatorNotFound [9]) (by decide)⟩

/-- C7.  The vote store is a list, not a set: recording the same validator
identity twice at a height yields a stored count of 2 (one distinct voter),
and that inflated count is exactly what FinalizeBlock compares against the
quorum threshold — here a two-validator roster (threshold 2) finalizes on
the strength of a single duplicated voter. -/
theorem duplicate_votes_inflate_finality_count :
    (lookupVotes c7State.finalityVotes 0).length = 2
    ∧ (lookupVotes c7State.finalityVotes 0).dedup.length = 1
    ∧ c7State.validatorSet.length * 2 / 3 + 1 = 2
    ∧ (finalizeBlock fmulZero c7State
        { height := 0, headerHash := [], txsHash := [] } 0).map
        (fun r => r.2) = some none := by
  decide

/-- C3 counterexample.  On a genesis-only sequence (tail index 0), requesting
height 5 — not `tail.index + 1` — does not fail with any discontinuity
error: the call returns successfully, appending one entry whose index is 1. -/
theorem getPoHEntry_no_discontinuity_failure :
    (getPoHEntry hashZero genesisState 5 0).map
        (fun r => (r.1.pohSequence.length, r.2.index)) = some (2, 1)
    ∧ genesisState.pohSequence.length = 1 := by
  decide

/-- C3 amended.  With a non-empty sequence, the entry-for-height operation
returns the stored entry unchanged when `0 ≤ height < length`, and for every
other height (including every non-contiguous and every negative one) it
appends exactly one entry chained to the tail — index `tail.index + 1`,
previous digest `tail.hash` — and returns it; it never returns an error. -/
theorem getPoHEntry_total_characterization (Hf : Bytes → Bytes)
    (c : Consensus) (height now : Int) (hne : c.pohSequence ≠ []) :
    (¬ (height < 0 ∨ (c.pohSequence.length : Int) ≤ height) →
      ∃ e, c.pohSequence[height.toNat]? = some e ∧
        getPoHEntry Hf c height now = some (c, e))
    ∧ ((height < 0 ∨ (c.pohSequence.length : Int) ≤ height) →
      ∃ prev, c.pohSequence.getLast? = some prev ∧
        getPoHEntry Hf c height now = some
          ({ c with pohSequence := c.pohSequence ++
              [{ index := prev.index + 1,
                 hash := hashEntry Hf prev height now,
                 previousHash := prev.hash, timestamp := now,
                 entryData := [] }] },
           { index := prev.index + 1, hash := hashEntry Hf prev height now,
             previousHash := prev.hash, timestamp := now,
             entryData := [] })) := by
  constructor
  · intro h
    have hlt : height.toNat < c.pohSequence.length := by omega
    refine ⟨c.pohSequence[height.toNat], List.getElem?_eq_getElem hlt, ?_⟩
    unfold getPoHEntry
    rw [if_neg h, List.getElem?_eq_getElem hlt]
  · intro h
    obtain ⟨prev, hp⟩ :=
      Option.isSome_iff_exists.mp (List.getLast?_isSome.mpr hne)
    refine ⟨prev, hp, ?_⟩
    unfold getPoHEntry
    rw [if_pos h, hp]

theorem getPoHEntry_total_characterization_witness :
    (∃ e, c3State.pohSequence[(1 : Int).toNat]? = some e ∧
      getPoHEntry hashZero c3State 1 0 = some (c3State, e))
    ∧ (∃ prev, c3State.pohSequence.getLast? = some prev ∧
        getPoHEntry hashZero c3State 7 0 = some
          ({ c3State with pohSequence := c3State.pohSequence ++
              [{ index := prev.index + 1,
                 hash := hashEntry hashZero prev 7 0,
                 previousHash := prev.hash, timestamp := 0,
                 entryData := [] }] },
           { index := prev.index + 1, hash := hashEntry hashZero prev 7 0,
             previousHash := prev.hash, timestamp := 0,
             entryData := [] })) :=
  ⟨(getPoHEntry_total_characterization hashZero c3State 1 0 (by decide)).1
      (by decide),
   (getPoHEntry_total_characterization hashZero c3State 7 0 (by decide)).2
      (by decide)⟩

/-- C8 counterexample.  Identical state, identical operation (the height-1
history extension), different wall-clock instants: the resulting history
sequences differ — entries record `time.Now()` directly and feed it into
the digest, so byte-identical histories across independently running
engines fail. -/
theorem history_not_wall_clock_independent :
    (getPoHEntry hashZero genesisState 1 1).map
        (fun r => r.1.pohSequence.map (fun e => e.timestamp)) = some [0, 1]
    ∧ (getPoHEntry hashZero genesisState 1 2).map
        (fun r => r.1.pohSequence.map (fun e => e.timestamp)) = some [0, 2]
    ∧ (getPoHEntry hashZero genesisState 1 1).map (fun r => r.1.pohSequence)
      ≠ (getPoHEntry hashZero genesisState 1 2).map
          (fun r => r.1.pohSequence) := by
  decide

/-- C8 amended.  Committee reshuffling is a pure function of roster order
and membership alone: any two states with the same (non-empty) roster —
regardless of height, history, votes or previous committees — reshuffle to
identical committee partitions. -/
theorem committees_deterministic_from_roster (c₁ c₂ : Consensus)
    (hvs : c₁.validatorSet = c₂.validatorSet)
    (hne : c₁.validatorSet ≠ []) :
    (shuffleValidators c₁).committees = (shuffleValidators c₂).committees := by
  have h₁ : ¬ c₁.validatorSet.length = 0 := by simpa using hne
  have h₂ : ¬ c₂.validatorSet.length = 0 := by rw [← hvs]; exact h₁
  simp only [shuffleValidators, if_neg h₁, if_neg h₂, hvs]

theorem committees_deterministic_from_roster_witness :
    (shuffleValidators c8a).committees = (shuffleValidators c8b).committees :=
  committees_deterministic_from_roster c8a c8b rfl (by decide)

/-- Link condition between the tail of a sequence and a candidate new entry
(vacuous for an empty sequence). -/
def tailLinkB (ps : List PoHEntry) (e : PoHEntry) : Bool :=
  match ps.getLast? with
  | none => true
  | some a => chainStepB a e

lemma tailLinkB_cons_cons (a b : PoHEntry) (l : List PoHEntry)
    (e : PoHEntry) : tailLinkB (a :: b :: l) e = tailLinkB (b :: l) e := by
  unfold tailLinkB
  rw [List.getLast?_cons_cons]

lemma linksB_append_singleton (ps : List PoHEntry) (e : PoHEntry) :
    linksB (ps ++ [e]) = (linksB ps && tailLinkB ps e) := by
  induction ps with
  | nil => rfl
  | cons a tail ih =>
    cases tail with
    | nil => simp [linksB, tailLinkB]
    | cons b rest =>
      show (chainStepB a b && linksB ((b :: rest) ++ [e])) =
        ((chainStepB a b && linksB (b :: rest)) && tailLinkB (a :: b :: rest) e)
      rw [ih, tailLinkB_cons_cons, Bool.and_assoc]

lemma headGenesisB_append (ps : List PoHEntry) (e : PoHEntry)
    (h : ps ≠ []) : headGenesisB (ps ++ [e]) = headGenesisB ps := by
  cases ps with
  | nil => exact absurd rfl h
  | cons g t => rfl

lemma chainInvB_append (ps : List PoHEntry) (prev e : PoHEntry)
    (hlast : ps.getLast? = some prev) (hstep : chainStepB prev e = true)
    (hinv : chainInvB ps = true) : chainInvB (ps ++ [e]) = true := by
  have hne : ps ≠ [] := by
    intro hn
    rw [hn] at hlast
    simp at hlast
  unfold chainInvB at hinv ⊢
  rw [headGenesisB_append ps e hne, linksB_append_singleton, tailLinkB, hlast]
  show (headGenesisB ps && (linksB ps && chainStepB prev e)) = true
  rw [hstep, Bool.and_true]
  exact hinv

theorem finalize_closing_entry_breaks_chain :
    chainInvB c2State.pohSequence = true
    ∧ (finalizeBlock fmulZero c2State
        { height := 5, headerHash := [3], txsHash := [] } 0).map
        (fun r => r.2) = some none
    ∧ (finalizeBlock fmulZero c2State
        { height := 5, headerHash := [3], txsHash := [] } 0).map
        (fun r => chainInvB r.1.pohSequence) = some false
    ∧ (finalizeBlock fmulZero c2State
        { height := 5, headerHash := [3], txsHash := [] } 0).map
        (fun r => r.1.pohSequence.map (fun e => (e.index, e.previousHash)))
      = some [(0, []), (5, [1, 2])] := by
  decide

/-- C2 amended.  Initialization establishes the hash-chain invariant (entry
0 is the fixed genesis entry with an empty previous digest), entry creation
during block production preserves it, and both appending operations are
append-only (the sequence is never truncated); the closing entry appended at
finalization, however, does not preserve the chain links (see the
counterexample). -/
theorem poh_chain_invariant_production :
    (∀ now : Int,
        chainInvB (initializePoH Consensus.new now).pohSequence = true)
    ∧ (∀ (Hf : Bytes → Bytes) (c : Consensus) (height now : Int)
        (c' : Consensus) (e : PoHEntry),
        chainInvB c.pohSequence = true →
        getPoHEntry Hf c height now = some (c', e) →
        chainInvB c'.pohSequence = true ∧
          ∃ suf, c'.pohSequence = c.pohSequence ++ suf)
    ∧ (∀ (c : Consensus) (b : Block) (now : Int) (c' : Consensus),
        updatePoHSequence c b now = some c' →
        ∃ suf, c'.pohSequence = c.pohSequence ++ suf) := by
  refine ⟨fun _ => rfl, ?_, ?_⟩
  · intro Hf c height now c' e hinv hget
    unfold getPoHEntry at hget
    split at hget
    · rcases hl : c.pohSequence.getLast? with _ | prev
      · rw [hl] at hget
        simp at hget
      · rw [hl] at hget
        simp only [Option.some.injEq, Prod.mk.injEq] at hget
        obtain ⟨hc', _⟩ := hget
        refine ⟨?_, ⟨[{ index := prev.index + 1,
                        hash := hashEntry Hf prev height now,
                        previousHash := prev.hash,
                        timestamp := now,
                        entryData := [] }], by rw [← hc']⟩⟩
        rw [← hc']
        exact chainInvB_append _ prev _ hl (by simp [chainStepB]) hinv
    · rcases he : c.pohSequence[height.toNat]? with _ | e0
      · rw [he] at hget
        simp at hget
      · rw [he] at hget
        simp only [Option.some.injEq, Prod.mk.injEq] at hget
        obtain ⟨hc', _⟩ := hget
        exact ⟨hc' ▸ hinv, ⟨[], by rw [← hc', List.append_nil]⟩⟩
  · intro c b now c' hupd
    unfold updatePoHSequence at hupd
    split at hupd
    · rcases hcb : c.currentBlock with _ | cb
      · rw [hcb] at hupd
        simp at hupd
      · rw [hcb] at hupd
        simp only [Option.some.injEq] at hupd
        exact ⟨[{ index := toUint64 b.height,
                  hash := b.headerHash,
                  previousHash := cb.headerHash,
                  timestamp := now,
                  entryData := b.txsHash }], by rw [← hupd]⟩
    · simp only [Option.some.injEq] at hupd
      exact ⟨[], by rw [← hupd, List.append_nil]⟩

theorem poh_chain_invariant_production_witness :
    chainInvB (initializePoH Consensus.new 5).pohSequence = true
    ∧ chainInvB c2Ext.pohSequence = true :=
  ⟨poh_chain_invariant_production.1 5,
   (poh_chain_invariant_production.2.1 hashZero genesisState 1 0 c2Ext
      { index := 1, hash := [], previousHash := genesisHash,
        timestamp := 0, entryData := [] }
      (by decide) (by decide)).1⟩

lemma committeeFor_validators (vs : List Validator) (q s : Nat) :
    (committeeFor vs q s).validators = (vs.drop (s * q)).take q := by
  simp only [committeeFor]
  by_cases hs : s * q ≥ vs.length
  · rw [if_pos hs, List.drop_eq_nil_of_le hs, List.take_nil]
  · rw [if_neg hs]
    push_neg at hs
    by_cases hf : s * q + q > vs.length
    · rw [if_pos hf]
      have h1 : (vs.drop (s * q)).length = vs.length - s * q := by simp
      rw [List.take_of_length_le (le_of_eq h1),
        List.take_of_length_le (by omega)]
    · rw [if_neg hf]
      congr 1
      omega

lemma flatten_chunks (vs : List Validator) (q k : Nat) :
    ((List.range k).map (fun s => (vs.drop (s * q)).take q)).flatten
      = vs.take (k * q) := by
  induction k with
  | zero => simp
  | succ k ih =>
    rw [List.range_succ, List.map_append, List.flatten_append, ih]
    simp only [List.map_cons, List.map_nil, List.flatten_cons,
      List.flatten_nil, List.append_nil]
    rw [Nat.succ_mul, List.take_add]

theorem shuffle_misses_validator_at_65 :
    c4State.validatorSet.length = 65
    ∧ ((shuffleValidators c4State).committees.map
        (fun cm => cm.validators.length)).sum = 64
    ∧ ((shuffleValidators c4State).committees.map (fun cm =>
        cm.validators.countP (fun v => v.address = [64]))).sum = 0
    ∧ c4State.validatorSet.countP (fun v => v.address = [64]) = 1 := by
  decide

/-- C4 amended.  For every non-empty roster the reshuffle produces exactly
64 committees whose concatenation (in shard order) is the prefix of the
roster of length `64 * validatorsPerShard` — so each covered validator
appears in exactly one committee, but when the roster exceeds 64 validators
and is not a multiple of 64 the trailing validators are covered by no
committee.  When the roster has at most 64 validators, or a multiple of 64,
the committees exactly partition the roster (and rosters smaller than 64
leave the remaining committees empty). -/
theorem shuffle_committee_coverage (c : Consensus)
    (h : c.validatorSet ≠ []) :
    (shuffleValidators c).committees.length = 64
    ∧ ((shuffleValidators c).committees.map Committee.validators).flatten
        = c.validatorSet.take (64 * validatorsPerShard c.validatorSet.length)
    ∧ (c.validatorSet.length ≤ 64 ∨ c.validatorSet.length % 64 = 0 →
        ((shuffleValidators c).committees.map Committee.validators).flatten
          = c.validatorSet) := by
  have hn : ¬ c.validatorSet.length = 0 := by simpa using h
  have hflat : ((shuffleValidators c).committees.map
      Committee.validators).flatten
      = c.validatorSet.take (64 * validatorsPerShard c.validatorSet.length) := by
    simp only [shuffleValidators, if_neg hn, List.map_map]
    have hcomp : (Committee.validators ∘
        committeeFor c.validatorSet (validatorsPerShard c.validatorSet.length))
        = fun s => (c.validatorSet.drop
            (s * validatorsPerShard c.validatorSet.length)).take
            (validatorsPerShard c.validatorSet.length) :=
      funext fun s => committeeFor_validators _ _ s
    rw [hcomp, flatten_chunks, Nat.mul_comm]
  refine ⟨by simp [shuffleValidators, if_neg hn, if_neg h], hflat,
    fun hsz => ?_⟩
  rw [hflat]
  apply List.take_of_length_le
  by_cases h64 : c.validatorSet.length / 64 = 0
  · simp only [validatorsPerShard, if_pos h64]
    omega
  · simp only [validatorsPerShard, if_neg h64]
    rcases hsz with hle | hmod
    · omega
    · omega

theorem shuffle_committee_coverage_witness :
    (shuffleValidators c4Small).committees.length = 64
    ∧ ((shuffleValidators c4Small).committees.map Committee.validators).flatten
        = c4Small.validatorSet :=
  ⟨(shuffle_committee_coverage c4Small (by decide)).1,
   (shuffle_committee_coverage c4Small (by decide)).2.2 (Or.inl (by decide))⟩

/-- Unfolding equation of `slashValidator` when the address is found at
index `i` holding record `val`. -/
lemma slashValidator_eq (c : Consensus) (address : Bytes) (reason : String)
    (penalty : Nat) (now : Int) (i : Nat) (val : Validator)
    (hidx : c.validatorSet.findIdx? (fun v => v.address = address) = some i)
    (hget : c.validatorSet[i]? = some val) :
    slashValidator c address reason penalty now =
      (if (slashedVal c reason penalty now val).stake < MinStake then
        ({ c with validatorSet := c.validatorSet.eraseIdx i }, none)
      else
        ({ c with validatorSet :=
            c.validatorSet.set i (slashedVal c reason penalty now val) },
         none)) := by
  simp only [slashValidator, slashedVal, hidx, hget]

theorem slash_leaves_committees_stale :
    (slashValidator c5State [0] "double-sign" (MinStake + 5) 0).2 = none
    ∧ (slashValidator c5State [0] "double-sign" (MinStake + 5) 0).1.validatorSet.map
        (fun v => v.address) = [[1]]
    ∧ (slashValidator c5State [0] "double-sign" (MinStake + 5) 0).1.committees
        = c5State.committees
    ∧ ((slashValidator c5State [0] "double-sign" (MinStake + 5) 0).1.committees.map
        (fun cm => cm.validators.countP (fun v => v.address = [0]))).sum = 1
    ∧ (shuffleValidators
        (slashValidator c5State [0] "double-sign" (MinStake + 5) 0).1).committees
      ≠ (slashValidator c5State [0] "double-sign" (MinStake + 5) 0).1.committees := by
  decide

/-- C5 amended.  For a validator found in the roster, SlashValidator clamps
the penalty to the current stake (recording the clamped value in the
appended SlashingEvent, so stake never goes negative), deducts it, sets the
slashed flag, and evicts the validator exactly when the remaining stake
falls below MinStake (in particular whenever the penalty was at least the
stake, since the remainder is then 0); but it never reshuffles — the
committees are left unchanged on every path. -/
theorem slashValidator_behavior (c : Consensus) (address : Bytes)
    (reason : String) (penalty : Nat) (now : Int) (i : Nat) (val : Validator)
    (hidx : c.validatorSet.findIdx? (fun v => v.address = address) = some i)
    (hget : c.validatorSet[i]? = some val) :
    slashValidator c address reason penalty now =
      (if (slashedVal c reason penalty now val).stake < MinStake then
        ({ c with validatorSet := c.validatorSet.eraseIdx i }, none)
      else
        ({ c with validatorSet :=
            c.validatorSet.set i (slashedVal c reason penalty now val) },
         none))
    ∧ (slashedVal c reason penalty now val).stake =
        val.stake - (if penalty > val.stake then val.stake else penalty)
    ∧ (slashValidator c address reason penalty now).1.committees
        = c.committees
    ∧ (val.stake ≤ penalty →
        (slashValidator c address reason penalty now).1.validatorSet
          = c.validatorSet.eraseIdx i) := by
  have hmain := slashValidator_eq c address reason penalty now i val hidx hget
  refine ⟨hmain, rfl, ?_, ?_⟩
  · rw [hmain]
    split <;> rfl
  · intro hpen
    rw [hmain]
    have hp : (slashedVal c reason penalty now val).stake = 0 := by
      simp only [slashedVal]
      split <;> omega
    rw [hp, if_pos (by decide)]

theorem slashValidator_behavior_witness :
    (slashValidator c5W [1] "downtime" 5 0).1.committees = c5W.committees
    ∧ (slashValidator c5W [0] "double-sign" (MinStake + 5) 0).1.validatorSet
        = c5W.validatorSet.eraseIdx 0 :=
  ⟨(slashValidator_behavior c5W [1] "downtime" 5 0 1 (mkV 1 MinStake)
      (by decide) (by decide)).2.2.1,
   (slashValidator_behavior c5W [0] "double-sign" (MinStake + 5) 0 0
      (mkV 0 MinStake) (by decide) (by decide)).2.2.2 (by decide)⟩

lemma shuffle_validatorSet (c : Consensus) :
    (shuffleValidators c).validatorSet = c.validatorSet := by
  simp only [shuffleValidators]
  split <;> rfl

lemma rosterInv_shuffle (c : Consensus) :
    RosterInv (shuffleValidators c) ↔ RosterInv c := by
  unfold RosterInv
  rw [shuffle_validatorSet]

lemma pairwise_address_set (l : List Validator) (i : Nat) (val v' : Validator)
    (hget : l[i]? = some val) (haddr : v'.address = val.address)
    (hp : l.Pairwise (fun a b => a.address ≠ b.address)) :
    (l.set i v').Pairwise (fun a b => a.address ≠ b.address) := by
  induction l generalizing i with
  | nil => simp at hget
  | cons x xs ih =>
    cases i with
    | zero =>
      simp only [List.getElem?_cons_zero, Option.some.injEq] at hget
      subst hget
      rw [List.set_cons_zero]
      rw [List.pairwise_cons] at hp ⊢
      exact ⟨fun b hb => haddr ▸ hp.1 b hb, hp.2⟩
    | succ n =>
      simp only [List.getElem?_cons_succ] at hget
      rw [List.set_cons_succ]
      rw [List.pairwise_cons] at hp ⊢
      refine ⟨fun b hb => ?_, ih n hget hp.2⟩
      rcases List.mem_or_eq_of_mem_set hb with hb' | hbv
      · exact hp.1 b hb'
      · rw [hbv, haddr]
        exact hp.1 val (List.getElem?_mem hget)

/-- C6.  The roster well-formedness invariant — pairwise distinct addresses
and stake at least MinStake for every member — holds for the fresh engine
and is preserved by AddValidator, RemoveValidator and SlashValidator; in
particular AddValidator rejects a sub-minimum candidate with the
insufficient-stake error and an already-present address with the
duplicate-validator error, inserting nothing in either case. -/
theorem roster_invariant_preserved :
    RosterInv Consensus.new
    ∧ (∀ (c : Consensus) (v : Validator), v.stake < MinStake →
        addValidator c v =
          (c, some (ConsensusError.insufficientStake v.stake MinStake)))
    ∧ (∀ (c : Consensus) (v : Validator), ¬ v.stake < MinStake →
        (∃ w ∈ c.validatorSet, w.address = v.address) →
        addValidator c v =
          (c, some (ConsensusError.duplicateValidator v.address)))
    ∧ (∀ (c : Consensus) (v : Validator),
        RosterInv c → RosterInv (addValidator c v).1)
    ∧ (∀ (c : Consensus) (a : Bytes),
        RosterInv c → RosterInv (removeValidator c a).1)
    ∧ (∀ (c : Consensus) (a : Bytes) (r : String) (p : Nat) (now : Int),
        RosterInv c → RosterInv (slashValidator c a r p now).1) := by
  refine ⟨⟨List.Pairwise.nil, by simp [Consensus.new]⟩, ?_, ?_, ?_, ?_, ?_⟩
  · intro c v h
    simp only [addValidator, if_pos h]
  · intro c v h hdup
    have hany : c.validatorSet.any (fun val => val.address = v.address)
        = true := by
      rw [List.any_eq_true]
      obtain ⟨w, hw, hwa⟩ := hdup
      exact ⟨w, hw, by simp [hwa]⟩
    simp only [addValidator, if_neg h, if_pos hany]
  · intro c v hinv
    by_cases h1 : v.stake < MinStake
    · simp only [addValidator, if_pos h1]
      exact hinv
    · by_cases h2 : c.validatorSet.any (fun val => val.address = v.address)
          = true
      · simp only [addValidator, if_neg h1, if_pos h2]
        exact hinv
      · simp only [addValidator, if_neg h1, if_neg h2]
        refine (rosterInv_shuffle _).mpr ⟨?_, ?_⟩
        · rw [List.pairwise_append]
          refine ⟨hinv.1, List.pairwise_singleton _ _, ?_⟩
          intro a ha b hb
          rw [List.mem_singleton] at hb
          subst hb
          simp only [List.any_eq_true, not_exists, not_and] at h2
          have := h2 a ha
          simpa using this
        · intro w hw
          rw [List.mem_append, List.mem_singleton] at hw
          rcases hw with hw | hw
          · exact hinv.2 w hw
          · subst hw
            show MinStake ≤ v.stake
            omega
  · intro c a hinv
    rcases h : c.validatorSet.findIdx? (fun val => val.address = a)
        with _ | i
    · simp only [removeValidator, h]
      exact hinv
    · simp only [removeValidator, h]
      refine (rosterInv_shuffle _).mpr ⟨?_, ?_⟩
      · exact hinv.1.sublist (List.eraseIdx_sublist ..)
      · intro w hw
        exact hinv.2 w ((List.eraseIdx_sublist ..).subset hw)
  · intro c a r p now hinv
    rcases h : c.validatorSet.findIdx? (fun val => val.address = a)
        with _ | i
    · simp only [slashValidator, h]
      exact hinv
    · rcases hg : c.validatorSet[i]? with _ | val
      · simp only [slashValidator, h, hg]
        exact hinv
      · rw [slashValidator_eq c a r p now i val h hg]
        split
        · refine ⟨?_, ?_⟩
          · exact hinv.1.sublist (List.eraseIdx_sublist ..)
          · intro w hw
            exact hinv.2 w ((List.eraseIdx_sublist ..).subset hw)
        · rename_i hkeep
          refine ⟨?_, ?_⟩
          · exact pairwise_address_set _ i val _ hg rfl hinv.1
          · intro w hw
            rcases List.mem_or_eq_of_mem_set hw with hw' | hwv
            · exact hinv.2 w hw'
            · rw [hwv]
              omega

/-- Witness for C6: the invariant holds after admitting one valid validator
to the fresh engine, and each rejection returns the typed error leaving the
state alone. -/
theorem roster_invariant_preserved_witness :
    RosterInv (addValidator Consensus.new (mkV 0 MinStake)).1
    ∧ addValidator Consensus.new (mkV 1 0)
        = (Consensus.new, some (ConsensusError.insufficientStake 0 MinStake))
    ∧ addValidator c10State (mkV 0 MinStake)
        = (c10State, some (ConsensusError.duplicateValidator [0])) :=
  ⟨roster_invariant_preserved.2.2.2.1 Consensus.new (mkV 0 MinStake)
      roster_invariant_preserved.1,
   roster_invariant_preserved.2.1 Consensus.new (mkV 1 0) (by decide),
   roster_invariant_preserved.2.2.1 c10State (mkV 0 MinStake) (by decide)
      ⟨{ mkV 0 MinStake with power := 1000000000000 }, by decide, rfl⟩⟩

end ZenConsensus
